import Mathlib

/-!
Verification of the skill dependency-ordering logic and the thin remote-API
glue of `src/duolingo.py` (the `Duolingo` client class).

The embedding is shallow:
* a Python skill dict becomes the `Skill` structure; the derived
  `dependency_order` entry, absent until `_compute_dependency_order` adds it,
  is an `Option Nat`;
* the werkzeug `MultiDict` keyed by each skill's first dependency name is
  represented by its observable operations (`getlist` as a filter over the
  skill list, `keys` as the deduplicated list of first-dependency names);
* the `while True` loop of `_compute_dependency_order` becomes the
  fuel-indexed `depLoop`; a run of the Python loop that terminates is exactly
  a run `depLoop pick fuel 0 "" skills = some out` for some fuel, and an
  infinite Python loop is `none` for every fuel;
* CPython's `set.pop()` on the canonical-dependency set is an arbitrary
  choice of an element; theorems quantify over any choice function `pick`
  that returns a member of its (non-empty) argument;
* remote I/O (`requests`, `re.search`) is an external collaborator: its
  observable result (decoded JSON value, regex match or `None`) is an input
  of the embedded function.
-/

namespace Duolingo

/-- A skill record, as stored in `user_data.language_data[lang]['skills']`.
`dependency_order` models the dict entry of the same name: `none` while the
key is absent, `some i` after `_compute_dependency_order` sets it to `i`. -/
structure Skill where
  name : String
  dependencies_name : List String
  learned : Bool
  title : String
  words : List String
  dependency_order : Option Nat
deriving DecidableEq, Repr

/-- The key a skill is filed under in `dependency_to_skill`: the first entry
of `dependencies_name`, or `""` when the list is empty (line 124). -/
def firstDep (s : Skill) : String :=
  s.dependencies_name.headD ""

/-- `dependency_to_skill.getlist key`: the skills filed under `key`, in
insertion (input) order. -/
def getlist (skills : List Skill) (key : String) : List Skill :=
  skills.filter (fun s => firstDep s == key)

/-- `dependency_to_skill.keys()`: the distinct first-dependency keys. -/
def allKeys (skills : List Skill) : List String :=
  (skills.map firstDep).dedup

/-- The in-place update `skill['dependency_order'] = index` performed on one
skill of the group keyed by `key` (line 136). -/
def applyKey (key : String) (index : Nat) (s : Skill) : Skill :=
  if firstDep s == key then { s with dependency_order := some index } else s

/-- The `for skill in dependency_to_skill.getlist(previous_skill)` loop body
(lines 135-136): every skill of the group keyed by `key` gets order `index`;
mutation in place is modelled by rebuilding the shared skill list. -/
def assignOrder (skills : List Skill) (key : String) (index : Nat) : List Skill :=
  skills.map (applyKey key index)

/-- `set(skill_names).intersection(set(dependency_to_skill.keys()))`
(lines 140-144): the names of the group just processed that are also
dependency keys, as a duplicate-free list standing for the Python set. -/
def candidates (skills : List Skill) (key : String) : List String :=
  (((getlist skills key).map Skill.name).dedup).filter
    (fun n => decide (n ∈ allKeys skills))

/-- The `while True` loop of `_compute_dependency_order` (lines 132-149),
indexed by fuel. `pick` stands for `set.pop()`: an arbitrary choice from the
non-empty candidate set. `none` means the given fuel was exhausted; an
infinite Python loop yields `none` for every fuel. -/
def depLoop (pick : List String → String) :
    Nat → Nat → String → List Skill → Option (List Skill)
  | 0, _, _, _ => none
  | fuel + 1, index, prev, skills =>
    let skills' := assignOrder skills prev index
    let cands := candidates skills' prev
    if cands = [] then some skills'
    else depLoop pick fuel (index + 1) (pick cands) skills'

/-- `_compute_dependency_order(skills)` (lines 116-151): the loop starting at
`index = 0`, `previous_skill = ''`, returning the (mutated) skill list. -/
def compute_dependency_order (pick : List String → String) (fuel : Nat)
    (skills : List Skill) : Option (List Skill) :=
  depLoop pick fuel 0 "" skills

/-- The sort key `lambda skill: skill['dependency_order']` of
`get_learned_skills` (line 281), on skills that do carry an order. -/
def sortKey (s : Skill) : Nat :=
  s.dependency_order.getD 0

/-- `get_learned_skills(lang)` (lines 270-282): run
`_compute_dependency_order` over the language's skills, then sort by
`dependency_order` (Python `sorted`: a stable ascending sort, modelled by a
stable insertion sort) and keep the learned skills.  `none`: the dependency
loop did not finish within the fuel; `some (Except.error ())`: some skill
never received a `dependency_order`, so the sort key lookup raises `KeyError`;
`some (Except.ok l)`: normal return of `l`. -/
def get_learned_skills (pick : List String → String) (fuel : Nat)
    (skills : List Skill) : Option (Except Unit (List Skill)) :=
  match compute_dependency_order pick fuel skills with
  | none => none
  | some annotated =>
    if annotated.all (fun s => s.dependency_order.isSome) then
      some (Except.ok
        ((List.insertionSort (fun a b => sortKey a ≤ sortKey b) annotated).filter
          (fun s => s.learned)))
    else some (Except.error ())

/-- A concrete choice function for `set.pop()`, used to instantiate the
`pick`-quantified theorems on concrete inputs. -/
def pickHead (l : List String) : String :=
  l.headD ""

/-- The control trace of the loop: the successive values of `previous_skill`,
`some` exactly when the loop exits within `fuel` iterations.  Because an
assignment changes no skill's `name` or `dependencies_name`, the candidate
sets — hence the trace — only depend on the original `skills`. -/
def steps (pick : List String → String) (skills : List Skill) :
    Nat → String → Option (List String)
  | 0, _ => none
  | fuel + 1, prev =>
    let cands := candidates skills prev
    if cands = [] then some [prev]
    else (steps pick skills fuel (pick cands)).map (fun ps => prev :: ps)

/-- Replay a trace of `previous_skill` values as order assignments. -/
def assignAll (skills : List Skill) (index : Nat) : List String → List Skill
  | [] => skills
  | p :: ps => assignAll (assignOrder skills p index) (index + 1) ps

/-- The pointwise effect of replaying a trace on one skill. -/
def applyAll (index : Nat) : List String → Skill → Skill
  | [], s => s
  | p :: ps, s => applyAll (index + 1) ps (applyKey p index s)

/-- The skills of a linear dependency chain after the root: each skill's
`dependencies_name` names exactly the previous skill. -/
def chainTail (prev : String) : List String → List Skill
  | [] => []
  | n :: rest => ⟨n, [prev], false, "", [], none⟩ :: chainTail n rest

/-- A linear dependency chain: the first named skill has no dependencies and
each later skill depends exactly on its predecessor (B on A, C on B, ...). -/
def chainSkills : List String → List Skill
  | [] => []
  | n :: rest => ⟨n, [], false, "", [], none⟩ :: chainTail n rest

/-- `chain` is a dependency chain hanging below key `p`: its head is filed
under `p` and each later skill is filed under its predecessor's name. -/
def isChainFrom : String → List Skill → Prop
  | _, [] => True
  | p, s :: rest => firstDep s = p ∧ isChainFrom s.name rest

/-- Orders `index, index + 1, ...` along a list of skills. -/
def annotateChain (index : Nat) : List Skill → List Skill
  | [] => []
  | s :: rest =>
    { s with dependency_order := some index } :: annotateChain (index + 1) rest

/-- A decoded JSON value, as returned by `request.json()`. -/
inductive JVal where
  | str (s : String)
  | num (n : Int)
  | boolean (b : Bool)
  | null
  | arr (elems : List JVal)
  | obj (fields : List (String × JVal))

/-- Python `dict.get(key)` on a decoded JSON object: the first binding of
`key`, or `None`. -/
def dictGet (fields : List (String × JVal)) (key : String) : Option JVal :=
  (fields.find? (fun kv => kv.1 == key)).map Prod.snd

/-- Python `value[key]` inside a `try` block: `some` the bound value when
`value` is a dict that has `key`; `none` when the subscript raises
(`KeyError` on a missing key, `TypeError` on a non-dict). -/
def JVal.index : JVal → String → Option JVal
  | .obj fields, key => dictGet fields key
  | _, _ => none

/-- Python `value == s` for a string literal `s`: true exactly for the equal
JSON string; comparing a non-string JSON value to a `str` is `False`. -/
def JVal.eqString : JVal → String → Bool
  | .str c, t => c == t
  | _, _ => false

/-- The lookup chain `request.json()['tracking_properties']['learning_language']`
of `_switch_language` (lines 92-93): `none` when any step raises. -/
def tracking_language (respJson : Option JVal) : Option JVal :=
  match respJson with
  | none => none
  | some j =>
    match j.index "tracking_properties" with
    | none => none
    | some tp => tp.index "learning_language"

/-- `_switch_language(lang)` (lines 79-96).  The remote collaborator's
observable behaviour is an input: `respJson` is `request.json()` (`none` when
decoding raises) and `refetch` is the profile snapshot a successful
`Struct(**self._get_data())` would produce (`none` when the refetch raises).
`cur` is the current `self.user_data`.  The result is the `user_data` after
the call, or the raised `'Failed to switch language'` error: any exception
inside the `try` block is caught and re-raised as that error, and when the
echoed language differs from `lang` the `if` body is skipped, so the call
returns with `user_data` unchanged. -/
def switch_language {α : Type} (lang : String) (respJson : Option JVal)
    (refetch : Option α) (cur : α) : Except String α :=
  match tracking_language respJson with
  | none => Except.error "Failed to switch language"
  | some v =>
    if v.eqString lang then
      match refetch with
      | none => Except.error "Failed to switch language"
      | some d => Except.ok d
    else Except.ok cur

/-- `_login` (lines 34-45): `attempt` is the decoded JSON object of the login
response; the method returns `True` exactly when
`attempt.get('response') == 'OK'` and raises `'Login failed'` otherwise. -/
def login (attempt : List (String × JVal)) : Except String Bool :=
  match dictGet attempt "response" with
  | some v => if v.eqString "OK" then Except.ok true else Except.error "Login failed"
  | none => Except.error "Login failed"

/-- The Python exception kinds relevant to the lazy media resolver.
`attributeError` is what `.group(0)` on `None` raises; `parseFailed` stands
for the dedicated parse-error kind the specification calls for, which no
code path of the module produces. -/
inductive PyError where
  | attributeError
  | parseFailed
deriving DecidableEq, Repr

/-- `_cloudfront_server` (lines 344-352): `searchResult` is the result of
`re.search` for the cloudfront-host pattern over the homepage — `none` when
the pattern is absent, in which case `server_list.group(0)` raises
`AttributeError` ('NoneType' object has no attribute 'group'). -/
def cloudfront_server (searchResult : Option String) : Except PyError String :=
  match searchResult with
  | none => Except.error PyError.attributeError
  | some m => Except.ok ("https:" ++ m)

/-- Python `s.find(c)` for a one-character needle: first index, or -1. -/
def pyFindChar (s : String) (c : Char) : Int :=
  match s.toList.findIdx? (fun x => x == c) with
  | some i => Int.ofNat i
  | none => -1

/-- One bound of a Python slice `s[a:b]`: negatives count from the end,
then the bound is clamped into `[0, len]`. -/
def pySliceBound (len : Nat) (i : Int) : Nat :=
  if i < 0 then (i + Int.ofNat len).toNat else min i.toNat len

/-- Python string slice `s[a:b]`. -/
def pySlice (s : String) (a b : Int) : String :=
  let cs := s.toList
  let lo := pySliceBound cs.length a
  let hi := pySliceBound cs.length b
  ⟨(cs.drop lo).take (hi - lo)⟩

/-- `_process_tts_voices` (lines 356-361): `searchResult` is the result of
`re.search` for the `tts_multi_voices` script pattern over the homepage.
When the pattern is absent `.group(0)` raises `AttributeError`; otherwise
the slice `voices_js[voices_js.find(opening brace) : voices_js.find(closing
brace) + 1]` is cut out and handed to `json.loads` (external decoding, not
modelled past the slice). -/
def process_tts_voices (searchResult : Option String) : Except PyError String :=
  match searchResult with
  | none => Except.error PyError.attributeError
  | some voices_js =>
    Except.ok (pySlice voices_js (pyFindChar voices_js '\x7b')
      (pyFindChar voices_js '\x7d' + 1))

/-- An input on which the walk revisits a key: a root named `"B"` and a
self-referential skill also named `"B"` that depends on `"B"`, so after the
root group is processed the canonical dependency is `"B"` forever. -/
def cyclicSkills : List Skill :=
  [⟨"B", [], false, "", [], none⟩, ⟨"B", ["B"], false, "", [], none⟩]

/-- Witness skills for the concrete instantiations: a learned root, two
skills depending on it (one learned, one not), a skill whose dependency
names no one (unreachable from the root walk), and a root carrying a title
and words. Fields: name, dependencies_name, learned, title, words,
dependency_order. -/
def skillA : Skill := ⟨"A", [], true, "", [], none⟩

def skillB : Skill := ⟨"B", ["A"], true, "", [], none⟩

def skillC : Skill := ⟨"C", ["A"], false, "", [], none⟩

def skillX : Skill := ⟨"X", ["Z"], true, "", [], none⟩

def skillT : Skill := ⟨"A", [], true, "t", ["w"], none⟩

theorem pickHead_mem (l : List String) (h : l ≠ []) : pickHead l ∈ l := by
  cases l with
  | nil => exact absurd rfl h
  | cons a t => simp [pickHead]

theorem applyKey_name (k : String) (i : Nat) (s : Skill) :
    (applyKey k i s).name = s.name := by
  unfold applyKey; split <;> rfl

theorem applyKey_deps (k : String) (i : Nat) (s : Skill) :
    (applyKey k i s).dependencies_name = s.dependencies_name := by
  unfold applyKey; split <;> rfl

theorem applyKey_firstDep (k : String) (i : Nat) (s : Skill) :
    firstDep (applyKey k i s) = firstDep s := by
  simp [firstDep, applyKey_deps]

theorem applyKey_learned (k : String) (i : Nat) (s : Skill) :
    (applyKey k i s).learned = s.learned := by
  unfold applyKey; split <;> rfl

theorem applyKey_title (k : String) (i : Nat) (s : Skill) :
    (applyKey k i s).title = s.title := by
  unfold applyKey; split <;> rfl

theorem applyKey_words (k : String) (i : Nat) (s : Skill) :
    (applyKey k i s).words = s.words := by
  unfold applyKey; split <;> rfl

theorem applyKey_of_ne (k : String) (i : Nat) (s : Skill)
    (h : firstDep s ≠ k) : applyKey k i s = s := by
  simp [applyKey, h]

theorem applyKey_of_eq (k : String) (i : Nat) (s : Skill)
    (h : firstDep s = k) :
    applyKey k i s = { s with dependency_order := some i } := by
  simp [applyKey, h]

theorem getlist_assignOrder (skills : List Skill) (k key : String) (i : Nat) :
    getlist (assignOrder skills k i) key = assignOrder (getlist skills key) k i := by
  unfold getlist assignOrder
  induction skills with
  | nil => rfl
  | cons s t ih =>
    simp only [List.map_cons, List.filter_cons, applyKey_firstDep]
    split
    · simpa using ih
    · exact ih

theorem map_name_assignOrder (skills : List Skill) (k : String) (i : Nat) :
    (assignOrder skills k i).map Skill.name = skills.map Skill.name := by
  unfold assignOrder
  rw [List.map_map]
  exact List.map_congr_left (fun s _ => applyKey_name k i s)

theorem allKeys_assignOrder (skills : List Skill) (k : String) (i : Nat) :
    allKeys (assignOrder skills k i) = allKeys skills := by
  unfold allKeys assignOrder
  rw [List.map_map]
  congr 1
  exact List.map_congr_left (fun s _ => applyKey_firstDep k i s)

theorem candidates_assignOrder (skills : List Skill) (k key : String) (i : Nat) :
    candidates (assignOrder skills k i) key = candidates skills key := by
  unfold candidates
  rw [getlist_assignOrder, allKeys_assignOrder, map_name_assignOrder]

theorem steps_assignOrder (pick : List String → String) (skills : List Skill)
    (k : String) (i : Nat) :
    ∀ (fuel : Nat) (prev : String),
      steps pick (assignOrder skills k i) fuel prev = steps pick skills fuel prev := by
  intro fuel
  induction fuel with
  | zero => intro prev; rfl
  | succ f ih =>
    intro prev
    simp only [steps, candidates_assignOrder, ih]

theorem depLoop_eq_steps (pick : List String → String) :
    ∀ (fuel index : Nat) (prev : String) (skills : List Skill),
      depLoop pick fuel index prev skills
        = (steps pick skills fuel prev).map (assignAll skills index) := by
  intro fuel
  induction fuel with
  | zero => intro index prev skills; rfl
  | succ f ih =>
    intro index prev skills
    simp only [depLoop, steps, candidates_assignOrder]
    split
    · rfl
    · rw [ih, ← steps_assignOrder pick skills prev index]
      rw [Option.map_map]
      rfl

theorem assignAll_getElem? (i : Nat) :
    ∀ (ps : List String) (skills : List Skill) (index : Nat),
      (assignAll skills index ps)[i]? = (skills[i]?).map (applyAll index ps) := by
  intro ps
  induction ps with
  | nil =>
    intro skills index
    cases h : skills[i]? <;> simp [assignAll, applyAll, h]
  | cons p t ih =>
    intro skills index
    simp only [assignAll, ih, assignOrder, List.getElem?_map]
    cases h : skills[i]? <;> simp [applyAll]

theorem assignAll_length :
    ∀ (ps : List String) (skills : List Skill) (index : Nat),
      (assignAll skills index ps).length = skills.length := by
  intro ps
  induction ps with
  | nil => intro skills index; rfl
  | cons p t ih =>
    intro skills index
    simp [assignAll, ih, assignOrder]

theorem applyAll_name (ps : List String) :
    ∀ (index : Nat) (s : Skill), (applyAll index ps s).name = s.name := by
  induction ps with
  | nil => intro index s; rfl
  | cons p t ih => intro index s; simp [applyAll, ih, applyKey_name]

theorem applyAll_deps (ps : List String) :
    ∀ (index : Nat) (s : Skill),
      (applyAll index ps s).dependencies_name = s.dependencies_name := by
  induction ps with
  | nil => intro index s; rfl
  | cons p t ih => intro index s; simp [applyAll, ih, applyKey_deps]

theorem applyAll_learned (ps : List String) :
    ∀ (index : Nat) (s : Skill), (applyAll index ps s).learned = s.learned := by
  induction ps with
  | nil => intro index s; rfl
  | cons p t ih => intro index s; simp [applyAll, ih, applyKey_learned]

theorem applyAll_title (ps : List String) :
    ∀ (index : Nat) (s : Skill), (applyAll index ps s).title = s.title := by
  induction ps with
  | nil => intro index s; rfl
  | cons p t ih => intro index s; simp [applyAll, ih, applyKey_title]

theorem applyAll_words (ps : List String) :
    ∀ (index : Nat) (s : Skill), (applyAll index ps s).words = s.words := by
  induction ps with
  | nil => intro index s; rfl
  | cons p t ih => intro index s; simp [applyAll, ih, applyKey_words]

theorem applyAll_of_not_mem (ps : List String) :
    ∀ (index : Nat) (s : Skill), firstDep s ∉ ps → applyAll index ps s = s := by
  induction ps with
  | nil => intro index s _; rfl
  | cons p t ih =>
    intro index s h
    have hp : firstDep s ≠ p := fun he => h (he ▸ List.mem_cons_self p t)
    have ht : firstDep s ∉ t := fun hm => h (List.mem_cons_of_mem p hm)
    simp only [applyAll]
    rw [applyKey_of_ne p index s hp, ih (index + 1) s ht]

theorem applyAll_order_congr (ps : List String) :
    ∀ (index : Nat) (s t : Skill), firstDep s = firstDep t →
      s.dependency_order = t.dependency_order →
      (applyAll index ps s).dependency_order = (applyAll index ps t).dependency_order := by
  induction ps with
  | nil => intro index s t _ ho; exact ho
  | cons p l ih =>
    intro index s t hf ho
    simp only [applyAll]
    refine ih (index + 1) _ _ ?_ ?_
    · rw [applyKey_firstDep, applyKey_firstDep, hf]
    · unfold applyKey
      rw [hf]
      split <;> simp [ho]

theorem applyAll_assigned (ps1 : List String) :
    ∀ (ps2 : List String) (p : String) (index : Nat) (s : Skill),
      firstDep s = p → p ∉ ps2 →
      applyAll index (ps1 ++ p :: ps2) s
        = { s with dependency_order := some (index + ps1.length) } := by
  induction ps1 with
  | nil =>
    intro ps2 p index s hf hp
    have hnot : firstDep { s with dependency_order := some index } ∉ ps2 := by
      show firstDep s ∉ ps2
      rw [hf]; exact hp
    simp only [List.nil_append, applyAll]
    rw [applyKey_of_eq p index s hf]
    rw [applyAll_of_not_mem ps2 (index + 1) _ hnot]
    simp
  | cons q t ih =>
    intro ps2 p index s hf hp
    simp only [List.cons_append, applyAll, List.append_eq]
    by_cases hq : firstDep s = q
    · have hf2 : firstDep { s with dependency_order := some index } = p := hf
      rw [applyKey_of_eq q index s hq]
      rw [ih ps2 p (index + 1) _ hf2 hp]
      simp only [List.length_cons, Skill.mk.injEq, Option.some.injEq, true_and]
      omega
    · rw [applyKey_of_ne q index s hq, ih ps2 p (index + 1) s hf hp]
      simp only [List.length_cons, Skill.mk.injEq, Option.some.injEq, true_and]
      omega

theorem steps_succ_eq (pick : List String → String) (skills : List Skill)
    (f : Nat) (p : String) :
    steps pick skills (f + 1) p
      = if candidates skills p = [] then some [p]
        else (steps pick skills f (pick (candidates skills p))).map
          (fun ps => p :: ps) := rfl

theorem steps_succ_of_some (pick : List String → String) (skills : List Skill) :
    ∀ (fuel : Nat) (p : String) (ps : List String),
      steps pick skills fuel p = some ps →
      steps pick skills (fuel + 1) p = some ps := by
  intro fuel
  induction fuel with
  | zero => intro p ps h; simp [steps] at h
  | succ f ih =>
    intro p ps h
    rw [steps_succ_eq] at h
    rw [steps_succ_eq]
    split at h
    · rw [if_pos (by assumption)]
      exact h
    · rename_i hne
      rw [if_neg hne]
      obtain ⟨ps', hps', rfl⟩ := Option.map_eq_some'.mp h
      rw [ih _ _ hps']
      rfl

theorem steps_mono (pick : List String → String) (skills : List Skill)
    (f1 f2 : Nat) (p : String) (ps : List String) (hle : f1 ≤ f2)
    (h : steps pick skills f1 p = some ps) :
    steps pick skills f2 p = some ps := by
  induction f2, hle using Nat.le_induction with
  | base => exact h
  | succ n _ ih => exact steps_succ_of_some pick skills n p ps ih

theorem steps_unique (pick : List String → String) (skills : List Skill)
    (f1 f2 : Nat) (p : String) (l1 l2 : List String)
    (h1 : steps pick skills f1 p = some l1)
    (h2 : steps pick skills f2 p = some l2) : l1 = l2 := by
  have g1 := steps_mono pick skills f1 (max f1 f2) p l1 (Nat.le_max_left _ _) h1
  have g2 := steps_mono pick skills f2 (max f1 f2) p l2 (Nat.le_max_right _ _) h2
  rw [g1] at g2
  exact (Option.some.injEq _ _ ▸ g2 : l1 = l2)

theorem steps_head (pick : List String → String) (skills : List Skill)
    (fuel : Nat) (p : String) (ps : List String)
    (h : steps pick skills fuel p = some ps) : ∃ t, ps = p :: t := by
  cases fuel with
  | zero => simp [steps] at h
  | succ f =>
    rw [steps_succ_eq] at h
    split at h
    · exact ⟨[], by simpa using h.symm⟩
    · obtain ⟨ps', _, rfl⟩ := Option.map_eq_some'.mp h
      exact ⟨ps', rfl⟩

theorem steps_suffix (pick : List String → String) (skills : List Skill) :
    ∀ (fuel : Nat) (r : String) (l : List String),
      steps pick skills fuel r = some l →
      ∀ q ∈ l, ∃ f' l', f' ≤ fuel ∧ steps pick skills f' q = some l' ∧
        l'.length ≤ l.length := by
  intro fuel
  induction fuel with
  | zero => intro r l h; simp [steps] at h
  | succ f ih =>
    intro r l h q hq
    rw [steps_succ_eq] at h
    split at h
    · rename_i hemp
      have hl : l = [r] := by simpa using h.symm
      subst hl
      have hqr : q = r := by simpa using hq
      subst hqr
      refine ⟨f + 1, [q], le_refl _, ?_, le_refl _⟩
      rw [steps_succ_eq, if_pos hemp]
    · rename_i hne
      obtain ⟨ps', hps', rfl⟩ := Option.map_eq_some'.mp h
      rcases List.mem_cons.mp hq with hqr | hqt
      · subst hqr
        refine ⟨f + 1, q :: ps', le_refl _, ?_, le_refl _⟩
        rw [steps_succ_eq, if_neg hne, hps']
        rfl
      · obtain ⟨f', l', hf', hst, hlen⟩ := ih _ _ hps' q hqt
        exact ⟨f', l', Nat.le_succ_of_le hf', hst,
          Nat.le_succ_of_le hlen⟩

theorem steps_nodup (pick : List String → String) (skills : List Skill) :
    ∀ (fuel : Nat) (p : String) (ps : List String),
      steps pick skills fuel p = some ps → ps.Nodup := by
  intro fuel
  induction fuel with
  | zero => intro p ps h; simp [steps] at h
  | succ f ih =>
    intro p ps h
    rw [steps_succ_eq] at h
    split at h
    · have hl : ps = [p] := by simpa using h.symm
      subst hl
      simp
    · rename_i hne
      obtain ⟨ps', hps', rfl⟩ := Option.map_eq_some'.mp h
      refine List.nodup_cons.mpr ⟨?_, ih _ _ hps'⟩
      intro hmem
      obtain ⟨f', l', hf', hst, hlen⟩ :=
        steps_suffix pick skills f _ ps' hps' p hmem
      have hbig : steps pick skills (f + 1) p = some l' :=
        steps_mono pick skills f' (f + 1) p l' (Nat.le_succ_of_le hf') hst
      have hself : steps pick skills (f + 1) p = some (p :: ps') := by
        rw [steps_succ_eq, if_neg hne, hps']
        rfl
      have hl : l' = p :: ps' := by
        rw [hbig] at hself
        exact Option.some.inj hself
      subst hl
      simp at hlen

theorem depLoop_succ_eq (pick : List String → String) (f index : Nat)
    (prev : String) (skills : List Skill) :
    depLoop pick (f + 1) index prev skills
      = if candidates (assignOrder skills prev index) prev = [] then
          some (assignOrder skills prev index)
        else depLoop pick f (index + 1)
          (pick (candidates (assignOrder skills prev index) prev))
          (assignOrder skills prev index) := rfl

theorem assignOrder_id (l : List Skill) (k : String) (i : Nat)
    (h : ∀ t ∈ l, firstDep t ≠ k) : assignOrder l k i = l := by
  unfold assignOrder
  have hc : ∀ t ∈ l, applyKey k i t = id t :=
    fun t ht => applyKey_of_ne k i t (h t ht)
  rw [List.map_congr_left hc, List.map_id]

theorem getlist_eq_nil (l : List Skill) (k : String)
    (h : ∀ t ∈ l, firstDep t ≠ k) : getlist l k = [] := by
  unfold getlist
  exact List.filter_eq_nil_iff.mpr (fun t ht => by simp [h t ht])

theorem candidates_eq_nil (l : List Skill) (k : String)
    (h : ∀ t ∈ l, firstDep t ≠ k) : candidates l k = [] := by
  unfold candidates
  rw [getlist_eq_nil l k h]
  rfl

theorem chainTail_map_name :
    ∀ (ns : List String) (prev : String),
      (chainTail prev ns).map Skill.name = ns := by
  intro ns
  induction ns with
  | nil => intro prev; rfl
  | cons n rest ih => intro prev; simp [chainTail, ih]

theorem chainSkills_map_name (ns : List String) :
    (chainSkills ns).map Skill.name = ns := by
  cases ns with
  | nil => rfl
  | cons n rest => simp [chainSkills, chainTail_map_name]

theorem isChainFrom_chainTail :
    ∀ (ns : List String) (prev : String),
      isChainFrom prev (chainTail prev ns) := by
  intro ns
  induction ns with
  | nil => intro prev; trivial
  | cons n rest ih => intro prev; exact ⟨rfl, ih n⟩

theorem isChainFrom_chainSkills (ns : List String) :
    isChainFrom "" (chainSkills ns) := by
  cases ns with
  | nil => trivial
  | cons n rest => exact ⟨rfl, isChainFrom_chainTail rest n⟩

theorem chain_firstDep_mem :
    ∀ (chain : List Skill) (p : String), isChainFrom p chain →
      ∀ t ∈ chain, firstDep t ∈ p :: chain.map Skill.name := by
  intro chain
  induction chain with
  | nil => intro p _ t ht; simp at ht
  | cons s rest ih =>
    intro p hc t ht
    simp only [List.map_cons]
    rcases List.mem_cons.mp ht with rfl | htr
    · rw [hc.1]; exact List.mem_cons_self _ _
    · rcases List.mem_cons.mp (ih s.name hc.2 t htr) with h1 | h2
      · rw [h1]; exact List.mem_cons_of_mem _ (List.mem_cons_self _ _)
      · exact List.mem_cons_of_mem _ (List.mem_cons_of_mem _ h2)

theorem annotateChain_length :
    ∀ (l : List Skill) (index : Nat), (annotateChain index l).length = l.length := by
  intro l
  induction l with
  | nil => intro index; rfl
  | cons s rest ih => intro index; simp [annotateChain, ih]

theorem annotateChain_getElem? :
    ∀ (l : List Skill) (index k : Nat),
      (annotateChain index l)[k]?
        = (l[k]?).map (fun s => { s with dependency_order := some (index + k) }) := by
  intro l
  induction l with
  | nil => intro index k; simp [annotateChain]
  | cons s rest ih =>
    intro index k
    cases k with
    | zero => simp [annotateChain]
    | succ m =>
      simp only [annotateChain, List.getElem?_cons_succ, ih (index + 1) m]
      have harith : index + 1 + m = index + (m + 1) := by omega
      rw [harith]

/-- Running the loop over a linear chain hanging below `p` (with `pre` the
already-processed skills, none of which is filed under a chain key):
it terminates and annotates the chain with `index, index + 1, ...`. -/
theorem depLoop_chain (pick : List String → String)
    (hpick : ∀ l, l ≠ [] → pick l ∈ l) :
    ∀ (chain pre : List Skill) (p : String) (index fuel : Nat),
      isChainFrom p chain →
      (p :: chain.map Skill.name).Nodup →
      (∀ t ∈ pre, firstDep t ∉ p :: chain.map Skill.name) →
      chain.length < fuel →
      depLoop pick fuel index p (pre ++ chain)
        = some (pre ++ annotateChain index chain) := by
  intro chain
  induction chain with
  | nil =>
    intro pre p index fuel _ _ h3 h4
    obtain ⟨f, rfl⟩ : ∃ f, fuel = f + 1 := ⟨fuel - 1, by omega⟩
    have hne : ∀ t ∈ pre, firstDep t ≠ p := by
      intro t ht he
      exact h3 t ht (he ▸ List.mem_cons_self _ _)
    rw [List.append_nil, depLoop_succ_eq, assignOrder_id pre p index hne,
      if_pos (candidates_eq_nil pre p hne)]
    simp [annotateChain]
  | cons s rest ih =>
    intro pre p index fuel hc h2 h3 h4
    obtain ⟨f, rfl⟩ : ∃ f, fuel = f + 1 := ⟨fuel - 1, by omega⟩
    obtain ⟨hf, hcr⟩ := hc
    simp only [List.map_cons] at h2 h3
    have hpne : p ∉ s.name :: rest.map Skill.name := (List.nodup_cons.mp h2).1
    have hnodup2 : (s.name :: rest.map Skill.name).Nodup := (List.nodup_cons.mp h2).2
    have hpre_ne : ∀ t ∈ pre, firstDep t ≠ p := by
      intro t ht he
      exact h3 t ht (he ▸ List.mem_cons_self _ _)
    have hrest_ne : ∀ t ∈ rest, firstDep t ≠ p := by
      intro t ht he
      apply hpne
      have hmem := chain_firstDep_mem rest s.name hcr t ht
      rw [he] at hmem
      exact hmem
    have hA : assignOrder (pre ++ s :: rest) p index
        = pre ++ { s with dependency_order := some index } :: rest := by
      unfold assignOrder
      rw [List.map_append]
      congr 1
      · have hc1 : ∀ t ∈ pre, applyKey p index t = id t :=
          fun t ht => applyKey_of_ne p index t (hpre_ne t ht)
        rw [List.map_congr_left hc1, List.map_id]
      · rw [List.map_cons]
        congr 1
        · exact applyKey_of_eq p index s hf
        · have hc2 : ∀ t ∈ rest, applyKey p index t = id t :=
            fun t ht => applyKey_of_ne p index t (hrest_ne t ht)
          rw [List.map_congr_left hc2, List.map_id]
    have hfs' : firstDep { s with dependency_order := some index } = p := hf
    have hB : getlist (pre ++ { s with dependency_order := some index } :: rest) p
        = [{ s with dependency_order := some index }] := by
      unfold getlist
      rw [List.filter_append, List.filter_cons]
      have hb1 : List.filter (fun t => firstDep t == p) pre = [] :=
        List.filter_eq_nil_iff.mpr (fun t ht => by simp [hpre_ne t ht])
      have hb2 : List.filter (fun t => firstDep t == p) rest = [] :=
        List.filter_eq_nil_iff.mpr (fun t ht => by simp [hrest_ne t ht])
      simp [hb1, hb2, hfs']
    have hcands : candidates
        (pre ++ { s with dependency_order := some index } :: rest) p
        = List.filter
            (fun n => decide (n ∈ allKeys
              (pre ++ { s with dependency_order := some index } :: rest)))
            [s.name] := by
      unfold candidates
      rw [hB]
      rfl
    rw [depLoop_succ_eq, hA, hcands]
    cases rest with
    | nil =>
      have hnotmem : s.name ∉ allKeys (pre ++ [{ s with dependency_order := some index }]) := by
        unfold allKeys
        rw [List.mem_dedup, List.map_append]
        intro hmem
        rcases List.mem_append.mp hmem with hin | hin
        · obtain ⟨t, ht, hts⟩ := List.mem_map.mp hin
          exact h3 t ht (hts ▸ List.mem_cons_of_mem _ (List.mem_cons_self _ _))
        · have heq : s.name = firstDep { s with dependency_order := some index } := by
            simpa using hin
          rw [hfs'] at heq
          exact hpne (by rw [← heq]; exact List.mem_cons_self _ _)
      rw [if_pos (by simp [hnotmem])]
      simp [annotateChain]
    | cons r rest' =>
      have hfr : firstDep r = s.name := hcr.1
      have hmem : s.name ∈ allKeys
          (pre ++ { s with dependency_order := some index } :: r :: rest') := by
        unfold allKeys
        rw [List.mem_dedup]
        have : firstDep r ∈ (pre ++ { s with dependency_order := some index } :: r :: rest').map firstDep := by
          apply List.mem_map_of_mem
          exact List.mem_append.mpr (Or.inr (List.mem_cons_of_mem _ (List.mem_cons_self _ _)))
        rw [hfr] at this
        exact this
      have hcands2 : List.filter
          (fun n => decide (n ∈ allKeys
            (pre ++ { s with dependency_order := some index } :: r :: rest')))
          [s.name] = [s.name] := by
        simp [hmem]
      rw [hcands2, if_neg (by simp)]
      have hpick2 : pick [s.name] = s.name := by
        have := hpick [s.name] (by simp)
        simpa using this
      rw [hpick2]
      have hsplit : pre ++ { s with dependency_order := some index } :: r :: rest'
          = (pre ++ [{ s with dependency_order := some index }]) ++ r :: rest' := by
        rw [List.append_assoc]
        rfl
      rw [hsplit]
      have h3' : ∀ t ∈ pre ++ [{ s with dependency_order := some index }],
          firstDep t ∉ s.name :: (r :: rest').map Skill.name := by
        intro t ht
        rcases List.mem_append.mp ht with hin | hin
        · intro hmem2
          exact h3 t hin (List.mem_cons_of_mem _ hmem2)
        · have : t = { s with dependency_order := some index } := by simpa using hin
          subst this
          rw [hfs']
          exact hpne
      have hlen : (r :: rest').length < f := by
        simp only [List.length_cons] at h4 ⊢
        omega
      have hres := ih (pre ++ [{ s with dependency_order := some index }]) s.name
        (index + 1) f hcr hnodup2 h3' hlen
      rw [hres, List.append_assoc]
      rfl

theorem assignAll_eq_map :
    ∀ (ps : List String) (skills : List Skill) (index : Nat),
      assignAll skills index ps = skills.map (applyAll index ps) := by
  intro ps
  induction ps with
  | nil =>
    intro skills index
    have hid : ∀ s ∈ skills, applyAll index [] s = id s := fun s _ => rfl
    rw [show assignAll skills index [] = skills from rfl,
      List.map_congr_left hid, List.map_id]
  | cons p t ih =>
    intro skills index
    show assignAll (assignOrder skills p index) (index + 1) t = _
    rw [ih, assignOrder, List.map_map]
    rfl

/-! ### Claim C3: termination of `_compute_dependency_order` -/

theorem steps_cyclic_none (pick : List String → String)
    (hpick : ∀ l, l ≠ [] → pick l ∈ l) :
    ∀ fuel, steps pick cyclicSkills fuel "B" = none := by
  have hpb : pick ["B"] = "B" := by
    simpa using hpick ["B"] (by simp)
  intro fuel
  induction fuel with
  | zero => rfl
  | succ f ih =>
    rw [steps_succ_eq]
    have hc : candidates cyclicSkills "B" = ["B"] := by decide
    rw [hc, if_neg (by simp), hpb, ih]
    rfl

/-- C3: the claim says `_compute_dependency_order` terminates on every input
and detects a key that maps back to an already-visited key.  It does not:
on `cyclicSkills` the walk goes `'' → "B" → "B" → ...`, re-assigning ever
larger orders, so the loop never exits — for every fuel bound and every
choice function for `set.pop()`, the run is still unfinished. -/
theorem dependency_loop_diverges_on_cycle (pick : List String → String)
    (hpick : ∀ l, l ≠ [] → pick l ∈ l) (fuel : Nat) :
    compute_dependency_order pick fuel cyclicSkills = none := by
  cases fuel with
  | zero => rfl
  | succ f =>
    rw [compute_dependency_order, depLoop_eq_steps, steps_succ_eq]
    have hc : candidates cyclicSkills "" = ["B"] := by decide
    have hpb : pick ["B"] = "B" := by
      simpa using hpick ["B"] (by simp)
    rw [hc, if_neg (by simp), hpb, steps_cyclic_none pick hpick f]
    rfl

theorem dependency_loop_diverges_on_cycle_witness :
    compute_dependency_order pickHead 9 cyclicSkills = none :=
  dependency_loop_diverges_on_cycle pickHead pickHead_mem 9

/-! ### Claim C6: skills without dependencies get order 0 -/

/-- C6: when `_compute_dependency_order` returns, every skill whose
`dependencies_name` is empty carries `dependency_order = 0`: such a skill is
filed under the root key `''`, the walk starts there with index 0, and a
finished run never revisits a key (a revisit would loop forever). -/
theorem no_dependencies_order_zero (pick : List String → String)
    (fuel : Nat) (skills out : List Skill) (i : Nat) (s : Skill)
    (h : compute_dependency_order pick fuel skills = some out)
    (hs : skills[i]? = some s) (hdep : s.dependencies_name = []) :
    out[i]? = some { s with dependency_order := some 0 } := by
  rw [compute_dependency_order, depLoop_eq_steps] at h
  obtain ⟨ps, hps, rfl⟩ := Option.map_eq_some'.mp h
  obtain ⟨tail, rfl⟩ := steps_head pick skills fuel "" ps hps
  have hnd := steps_nodup pick skills fuel "" _ hps
  have hnotail : "" ∉ tail := (List.nodup_cons.mp hnd).1
  have hfd : firstDep s = "" := by simp [firstDep, hdep]
  rw [assignAll_getElem? i ("" :: tail) skills 0, hs, Option.map_some']
  have happ := applyAll_assigned [] tail "" 0 s hfd hnotail
  simp only [List.nil_append] at happ
  rw [happ]
  simp

theorem no_dependencies_order_zero_witness :
    ([{ skillA with dependency_order := some 0 }] : List Skill)[0]?
      = some { skillA with dependency_order := some 0 } :=
  no_dependencies_order_zero pickHead 2 [skillA]
    [{ skillA with dependency_order := some 0 }] 0 skillA
    (by decide) (by decide) rfl

/-! ### Claim C5: identical dependency lists give identical orders -/

/-- C5: two input skills with the same `dependencies_name` list are filed
under the same first-dependency key, so every assignment touches both with
the same index; when `_compute_dependency_order` returns, their orders are
equal. -/
theorem equal_dependencies_equal_order (pick : List String → String)
    (fuel : Nat) (skills out : List Skill) (i j : Nat) (s t : Skill)
    (h : compute_dependency_order pick fuel skills = some out)
    (hi : skills[i]? = some s) (hj : skills[j]? = some t)
    (hdep : s.dependencies_name = t.dependencies_name)
    (_hne : s.dependencies_name ≠ [])
    (hord : s.dependency_order = t.dependency_order) :
    ∃ a b, out[i]? = some a ∧ out[j]? = some b ∧
      a.dependency_order = b.dependency_order := by
  rw [compute_dependency_order, depLoop_eq_steps] at h
  obtain ⟨ps, hps, rfl⟩ := Option.map_eq_some'.mp h
  refine ⟨applyAll 0 ps s, applyAll 0 ps t, ?_, ?_, ?_⟩
  · rw [assignAll_getElem? i ps skills 0, hi]; rfl
  · rw [assignAll_getElem? j ps skills 0, hj]; rfl
  · exact applyAll_order_congr ps 0 s t (by unfold firstDep; rw [hdep]) hord

theorem equal_dependencies_equal_order_witness :
    ∃ a b, ([skillB, skillC] : List Skill)[0]? = some a ∧
      ([skillB, skillC] : List Skill)[1]? = some b ∧
      a.dependency_order = b.dependency_order :=
  equal_dependencies_equal_order pickHead 1 [skillB, skillC] [skillB, skillC]
    0 1 skillB skillC
    (by decide) (by decide) (by decide) (by decide) (by decide) rfl

/-! ### Claim C7: unreachable skills stay unassigned and break the sort -/

/-- C7: a skill whose first-dependency key is never visited by the walk
keeps no `dependency_order`; `get_learned_skills` then raises `KeyError`
when its sort key is read instead of returning a result. -/
theorem unreachable_skill_unassigned_key_error (pick : List String → String)
    (fuel : Nat) (skills : List Skill) (ps : List String) (i : Nat) (s : Skill)
    (hsteps : steps pick skills fuel "" = some ps)
    (hs : skills[i]? = some s)
    (hunreached : firstDep s ∉ ps)
    (hord : s.dependency_order = none) :
    ∃ out, compute_dependency_order pick fuel skills = some out ∧
      out[i]? = some s ∧
      get_learned_skills pick fuel skills = some (Except.error ()) := by
  have hcomp : compute_dependency_order pick fuel skills
      = some (assignAll skills 0 ps) := by
    rw [compute_dependency_order, depLoop_eq_steps, hsteps]
    rfl
  have hout : (assignAll skills 0 ps)[i]? = some s := by
    rw [assignAll_getElem? i ps skills 0, hs, Option.map_some',
      applyAll_of_not_mem ps 0 s hunreached]
  refine ⟨_, hcomp, hout, ?_⟩
  have hmem : s ∈ assignAll skills 0 ps := List.getElem?_mem hout
  have hfalse : (assignAll skills 0 ps).all
      (fun u => u.dependency_order.isSome) = false := by
    cases hall : (assignAll skills 0 ps).all (fun u => u.dependency_order.isSome) with
    | false => rfl
    | true => exact absurd (List.all_eq_true.mp hall s hmem) (by simp [hord])
  simp [get_learned_skills, hcomp, hfalse]

theorem unreachable_skill_unassigned_key_error_witness :
    ∃ out, compute_dependency_order pickHead 3 [skillA, skillX] = some out ∧
      out[1]? = some skillX ∧
      get_learned_skills pickHead 3 [skillA, skillX]
        = some (Except.error ()) :=
  unreachable_skill_unassigned_key_error pickHead 3 [skillA, skillX]
    [""] 1 skillX
    (by decide) (by decide) (by decide) rfl

/-! ### Claim C10: the resolver only adds `dependency_order` -/

/-- C10: when `_compute_dependency_order` returns, it returns the same skill
collection — same length, same positions — and changes nothing of any skill
except possibly its `dependency_order` entry. -/
theorem compute_dependency_order_frame (pick : List String → String)
    (fuel : Nat) (skills out : List Skill)
    (h : compute_dependency_order pick fuel skills = some out) :
    out.length = skills.length ∧
    ∀ (i : Nat) (s : Skill), skills[i]? = some s →
      ∃ u : Skill, out[i]? = some u ∧ u.name = s.name ∧
        u.dependencies_name = s.dependencies_name ∧ u.learned = s.learned ∧
        u.title = s.title ∧ u.words = s.words := by
  rw [compute_dependency_order, depLoop_eq_steps] at h
  obtain ⟨ps, hps, rfl⟩ := Option.map_eq_some'.mp h
  refine ⟨assignAll_length ps skills 0, ?_⟩
  intro i s hs
  refine ⟨applyAll 0 ps s, ?_, applyAll_name ps 0 s, applyAll_deps ps 0 s,
    applyAll_learned ps 0 s, applyAll_title ps 0 s, applyAll_words ps 0 s⟩
  rw [assignAll_getElem? i ps skills 0, hs]
  rfl

theorem compute_dependency_order_frame_witness :
    ([{ skillT with dependency_order := some 0 },
      { skillB with dependency_order := some 1 }] : List Skill).length
      = ([skillT, skillB] : List Skill).length ∧
    ∀ (i : Nat) (s : Skill), ([skillT, skillB] : List Skill)[i]? = some s →
      ∃ u : Skill, ([{ skillT with dependency_order := some 0 },
        { skillB with dependency_order := some 1 }] : List Skill)[i]? = some u ∧
        u.name = s.name ∧ u.dependencies_name = s.dependencies_name ∧
        u.learned = s.learned ∧ u.title = s.title ∧ u.words = s.words :=
  compute_dependency_order_frame pickHead 3 [skillT, skillB]
    [{ skillT with dependency_order := some 0 },
     { skillB with dependency_order := some 1 }]
    (by decide)

/-! ### Claim C1: strictly increasing orders along a dependency chain -/

/-- C1: on a skill collection forming a linear dependency chain (each skill's
`dependencies_name` names the previous skill), `_compute_dependency_order`
finishes — `ns.length + 1` loop iterations suffice — and the assigned
`dependency_order` values are strictly increasing along the chain, for every
choice function standing in for `set.pop()`. -/
theorem chain_orders_strictly_increasing (pick : List String → String)
    (hpick : ∀ l, l ≠ [] → pick l ∈ l) (ns : List String)
    (h1 : ns.Nodup) (h2 : "" ∉ ns) :
    ∃ out, compute_dependency_order pick (ns.length + 1) (chainSkills ns)
        = some out ∧
      out.length = ns.length ∧
      ∀ (i j : Nat), i < j → j < out.length →
        ∃ (a b : Skill) (oa ob : Nat), out[i]? = some a ∧ out[j]? = some b ∧
          a.dependency_order = some oa ∧ b.dependency_order = some ob ∧
          oa < ob := by
  have hlen : (chainSkills ns).length = ns.length := by
    have hmap := congrArg List.length (chainSkills_map_name ns)
    rwa [List.length_map] at hmap
  have hnd : ("" :: (chainSkills ns).map Skill.name).Nodup := by
    rw [chainSkills_map_name]
    exact List.nodup_cons.mpr ⟨h2, h1⟩
  have hch := depLoop_chain pick hpick (chainSkills ns) [] "" 0 (ns.length + 1)
    (isChainFrom_chainSkills ns) hnd (by intro t ht; simp at ht)
    (by rw [hlen]; omega)
  simp only [List.nil_append] at hch
  refine ⟨annotateChain 0 (chainSkills ns), hch, ?_, ?_⟩
  · rw [annotateChain_length, hlen]
  · intro i j hij hj
    rw [annotateChain_length] at hj
    have hi : i < (chainSkills ns).length := lt_trans hij hj
    have ha0 := List.getElem?_eq_getElem hi
    have hb0 := List.getElem?_eq_getElem hj
    refine ⟨{ (chainSkills ns)[i] with dependency_order := some i },
      { (chainSkills ns)[j] with dependency_order := some j }, i, j,
      ?_, ?_, rfl, rfl, hij⟩
    · rw [annotateChain_getElem?, ha0, Option.map_some']
      simp
    · rw [annotateChain_getElem?, hb0, Option.map_some']
      simp

theorem chain_orders_strictly_increasing_witness :
    ∃ out, compute_dependency_order pickHead 4 (chainSkills ["A", "B", "C"])
        = some out ∧
      out.length = 3 ∧
      ∀ (i j : Nat), i < j → j < out.length →
        ∃ (a b : Skill) (oa ob : Nat), out[i]? = some a ∧ out[j]? = some b ∧
          a.dependency_order = some oa ∧ b.dependency_order = some ob ∧
          oa < ob :=
  chain_orders_strictly_increasing pickHead pickHead_mem ["A", "B", "C"]
    (by decide) (by decide)

/-! ### Claim C2: `get_learned_skills` filters and sorts -/

/-- C2: when every skill ends up with a `dependency_order`,
`get_learned_skills` returns exactly the learned skills of the annotated
collection — a permutation of its `learned` filter — sorted ascending by
`dependency_order`; when no input skill is learned it returns `[]`. -/
theorem get_learned_skills_filters_and_sorts (pick : List String → String)
    (fuel : Nat) (skills annotated : List Skill)
    (hc : compute_dependency_order pick fuel skills = some annotated)
    (hall : annotated.all (fun s => s.dependency_order.isSome) = true) :
    ∃ out, get_learned_skills pick fuel skills = some (Except.ok out) ∧
      out.Perm (annotated.filter (fun s => s.learned)) ∧
      List.Sorted (fun a b => sortKey a ≤ sortKey b) out ∧
      (∀ s ∈ out, s.learned = true) ∧
      ((∀ s ∈ skills, s.learned = false) → out = []) := by
  refine ⟨(List.insertionSort (fun a b => sortKey a ≤ sortKey b)
      annotated).filter (fun s => s.learned), ?_, ?_, ?_, ?_, ?_⟩
  · simp [get_learned_skills, hc, hall]
  · exact (List.perm_insertionSort _ annotated).filter _
  · haveI : IsTotal Skill (fun a b => sortKey a ≤ sortKey b) :=
      ⟨fun a b => Nat.le_total _ _⟩
    haveI : IsTrans Skill (fun a b => sortKey a ≤ sortKey b) :=
      ⟨fun _ _ _ hab hbc => Nat.le_trans hab hbc⟩
    exact (List.sorted_insertionSort _ annotated).filter _
  · intro s hs
    exact (List.mem_filter.mp hs).2
  · intro hnone
    apply List.filter_eq_nil_iff.mpr
    intro a ha
    have hmem : a ∈ annotated :=
      ((List.perm_insertionSort _ annotated).mem_iff).mp ha
    rw [compute_dependency_order, depLoop_eq_steps] at hc
    obtain ⟨ps, _, rfl⟩ := Option.map_eq_some'.mp hc
    rw [assignAll_eq_map] at hmem
    obtain ⟨s0, hs0, rfl⟩ := List.mem_map.mp hmem
    simp [applyAll_learned, hnone s0 hs0]

theorem get_learned_skills_filters_and_sorts_witness :
    ∃ out, get_learned_skills pickHead 4 [skillA, skillB, skillC]
        = some (Except.ok out) ∧
      out.Perm (([{ skillA with dependency_order := some 0 },
        { skillB with dependency_order := some 1 },
        { skillC with dependency_order := some 1 }] : List Skill).filter
          (fun s => s.learned)) ∧
      List.Sorted (fun a b => sortKey a ≤ sortKey b) out ∧
      (∀ s ∈ out, s.learned = true) ∧
      ((∀ s ∈ ([skillA, skillB, skillC] : List Skill), s.learned = false) →
        out = []) :=
  get_learned_skills_filters_and_sorts pickHead 4 [skillA, skillB, skillC]
    [{ skillA with dependency_order := some 0 },
     { skillB with dependency_order := some 1 },
     { skillC with dependency_order := some 1 }]
    (by decide) (by decide)

/-! ### Claim C4: `_switch_language` outcomes -/

/-- C4 (counterexample to the claim as stated): with a well-formed response
whose `tracking_properties.learning_language` is `"de"` while `"fr"` was
requested, the call neither refetches (the snapshot stays `0`, not the fresh
`1`) nor raises — it returns silently, against the claim's "in every other
case the call fails by raising". -/
theorem switch_language_silent_on_mismatch :
    tracking_language (some (JVal.obj [("tracking_properties",
        JVal.obj [("learning_language", JVal.str "de")])]))
      = some (JVal.str "de") ∧
    ("de" : String) ≠ "fr" ∧
    switch_language "fr" (some (JVal.obj [("tracking_properties",
        JVal.obj [("learning_language", JVal.str "de")])]))
      (some (1 : Nat)) 0 = Except.ok 0 ∧
    switch_language "fr" (some (JVal.obj [("tracking_properties",
        JVal.obj [("learning_language", JVal.str "de")])]))
      (some (1 : Nat)) 0 ≠ Except.error "Failed to switch language" ∧
    switch_language "fr" (some (JVal.obj [("tracking_properties",
        JVal.obj [("learning_language", JVal.str "de")])]))
      (some (1 : Nat)) 0 ≠ Except.ok 1 := by
  refine ⟨rfl, by decide, rfl, ?_, ?_⟩
  · intro h
    rw [show switch_language "fr" (some (JVal.obj [("tracking_properties",
        JVal.obj [("learning_language", JVal.str "de")])]))
        (some (1 : Nat)) 0 = Except.ok 0 from rfl] at h
    exact Except.noConfusion h
  · intro h
    rw [show switch_language "fr" (some (JVal.obj [("tracking_properties",
        JVal.obj [("learning_language", JVal.str "de")])]))
        (some (1 : Nat)) 0 = Except.ok 0 from rfl] at h
    injection h with h2
    exact absurd h2 (by decide)

/-- C4 (amended): `_switch_language` raises `'Failed to switch language'`
exactly when the lookup chain fails or when the echo matched but the refetch
raised; on a matching echo with a successful refetch the snapshot is
replaced; and on a well-formed response echoing anything that is not the
requested code, the call returns with the snapshot unchanged. -/
theorem switch_language_cases {α : Type} (lang : String)
    (respJson : Option JVal) (refetch : Option α) (cur : α) :
    (tracking_language respJson = none →
      switch_language lang respJson refetch cur
        = Except.error "Failed to switch language") ∧
    (∀ v, tracking_language respJson = some v → v.eqString lang = false →
      switch_language lang respJson refetch cur = Except.ok cur) ∧
    (∀ d, tracking_language respJson = some (JVal.str lang) →
      refetch = some d →
      switch_language lang respJson refetch cur = Except.ok d) ∧
    (tracking_language respJson = some (JVal.str lang) → refetch = none →
      switch_language lang respJson refetch cur
        = Except.error "Failed to switch language") := by
  refine ⟨?_, ?_, ?_, ?_⟩
  · intro h
    simp [switch_language, h]
  · intro v hv hfalse
    simp [switch_language, hv, hfalse]
  · intro d hv hd
    subst hd
    simp [switch_language, hv, JVal.eqString]
  · intro hv hd
    subst hd
    simp [switch_language, hv, JVal.eqString]

/-! ### Claim C8: `_login` success condition -/

/-- C8: `_login` returns exactly when the decoded JSON response has
`'response'` equal to `'OK'`, and raises `'Login failed'` in every other
case. -/
theorem login_ok_iff_response_ok (attempt : List (String × JVal)) :
    (login attempt = Except.ok true ↔
      dictGet attempt "response" = some (JVal.str "OK")) ∧
    (login attempt = Except.error "Login failed" ↔
      dictGet attempt "response" ≠ some (JVal.str "OK")) := by
  have heq : ∀ v : JVal, v.eqString "OK" = true ↔ v = JVal.str "OK" := by
    intro v
    cases v <;> simp [JVal.eqString]
  cases hres : dictGet attempt "response" with
  | none =>
    have hl : login attempt = Except.error "Login failed" := by
      unfold login
      rw [hres]
    rw [hl]
    simp
  | some v =>
    have hl : login attempt
        = if v.eqString "OK" = true then Except.ok true
          else Except.error "Login failed" := by
      unfold login
      rw [hres]
    by_cases hv : v.eqString "OK" = true
    · have hvOK : v = JVal.str "OK" := (heq v).mp hv
      subst hvOK
      rw [hl, if_pos hv]
      simp
    · have hvne : v ≠ JVal.str "OK" := fun he => hv ((heq v).mpr he)
      rw [hl, if_neg hv]
      simp [hvne]

/-! ### Claim C9: the media resolver's failure on an absent pattern -/

/-- C9: when either homepage pattern is absent, `re.search` returns `None`
and the subsequent `.group(0)` raises a plain `AttributeError` — not the
dedicated parse-error kind the specification requires. -/
theorem media_resolver_attribute_error :
    cloudfront_server none = Except.error PyError.attributeError ∧
    process_tts_voices none = Except.error PyError.attributeError ∧
    PyError.attributeError ≠ PyError.parseFailed :=
  ⟨rfl, rfl, by decide⟩

end Duolingo
